import Mathlib

/-! # Definitions: the shallow embedding of the program -/

/-- Python round: round half to even (banker's rounding), as an integer. -/
def pyRound (x : ℚ) : ℤ :=
  if x - (⌊x⌋ : ℚ) = 1/2 then (if ⌊x⌋ % 2 = 0 then ⌊x⌋ else ⌊x⌋ + 1) else ⌊x + 1/2⌋

/-- Python round(x, 2): round half to even at two decimal places. -/
def pyRound2 (x : ℚ) : ℚ :=
  (pyRound (100 * x) : ℚ) / 100

/-- The SM-2 ease factor update with the 1.3 floor:
max(1.3, ef + 0.1 - (5-q)*(0.08 + (5-q)*0.02)). -/
def sm2NewEase (quality : ℤ) (currentEaseFactor : ℚ) : ℚ :=
  max (13/10)
    (currentEaseFactor + (1/10 - ((5 : ℚ) - quality) * (2/25 + ((5 : ℚ) - quality) * (1/50))))

/-- The advisory mastery heuristic of _calculate_suggested_mastery. -/
def calculateSuggestedMastery (quality repetitions : ℤ) (currentMastery : ℚ) : Option ℚ :=
  let target : ℚ :=
    if 4 ≤ quality ∧ 4 ≤ repetitions then 9/10 + ((quality : ℚ) - 4) * (1/20)
    else if 4 ≤ quality ∧ 2 ≤ repetitions then 3/4 + ((quality : ℚ) - 4) * (1/20)
    else if 3 ≤ quality ∧ 2 ≤ repetitions then 3/5
    else if 3 ≤ quality then 2/5
    else if 2 ≤ quality then 1/4
    else max (1/10) (currentMastery - 1/10)
  if 1/20 ≤ |target - currentMastery| then some (pyRound2 target) else none

/-- Result record of calculate_next_review; the next_review_at datetime is
determined by interval_days (the date is now plus interval_days days). -/
structure SM2Result where
  ease_factor : ℚ
  interval_days : ℤ
  repetitions : ℤ
  suggested_mastery : Option ℚ
deriving Repr, DecidableEq

/-- The pre-adjustment interval of the success branch: 1 on the first
success, 6 on the second, round(interval times the updated ease factor)
afterwards. -/
def sm2PreInterval (quality currentInterval currentRepetitions : ℤ) (currentEaseFactor : ℚ) : ℤ :=
  if currentRepetitions = 0 then 1
  else if currentRepetitions = 1 then 6
  else pyRound ((currentInterval : ℚ) * sm2NewEase quality currentEaseFactor)

/-- calculate_next_review; none models the ValueError raised for an
out-of-range quality. -/
def calculateNextReview (quality : ℤ) (difficulty : ℚ) (currentEaseFactor : ℚ)
    (currentInterval : ℤ) (currentRepetitions : ℤ) (currentMastery : ℚ) : Option SM2Result :=
  if 0 ≤ quality ∧ quality ≤ 5 then
    let ef2 := sm2NewEase quality currentEaseFactor
    let newInterval : ℤ :=
      if 3 ≤ quality then
        sm2PreInterval quality currentInterval currentRepetitions currentEaseFactor
      else 1
    let newRepetitions : ℤ := if 3 ≤ quality then currentRepetitions + 1 else 0
    let ef3 : ℚ := if 3 ≤ quality then ef2 else min ef2 currentEaseFactor
    let difficultyFactor : ℚ := 1 - difficulty * (3/10)
    let finalInterval : ℤ := max 1 (pyRound ((newInterval : ℚ) * difficultyFactor))
    some { ease_factor := pyRound2 ef3,
           interval_days := finalInterval,
           repetitions := newRepetitions,
           suggested_mastery := calculateSuggestedMastery quality newRepetitions currentMastery }
  else none

/-- calculate_overall_mastery: round(0.3*recall + 0.4*application + 0.3*explanation, 2). -/
def calculateOverallMastery (mr ma me : ℚ) : ℚ :=
  pyRound2 ((3/10) * mr + (2/5) * ma + (3/10) * me)

/-- Relation types between concepts. -/
inductive RelationType where
  | prerequisite
  | buildsOn
  | relatedTo
  | contradicts
  | appliesTo
  | parentOf
deriving Repr, DecidableEq

/-- A row of the nodes table. -/
structure NodeRec where
  id : String
  concept : String
  description : Option String := none
  domain : Option String := none
  masteryLevel : ℚ := 0
  masteryRecall : ℚ := 0
  masteryApplication : ℚ := 0
  masteryExplanation : ℚ := 0
  difficulty : ℚ := 1/2
  easeFactor : ℚ := 5/2
  intervalDays : ℤ := 0
  repetitions : ℤ := 0
  lastReviewedAt : Option String := none
  nextReviewAt : Option String := none
  reviewCount : ℤ := 0
  tags : List String := []
  misconceptions : List String := []
  createdAt : String := ""
  updatedAt : String := ""
deriving Repr, DecidableEq

/-- A row of the edges table. -/
structure EdgeRec where
  source : String
  target : String
  relType : RelationType
  strength : ℚ := 1
  reasoning : Option String := none
  createdAt : String := ""
deriving Repr, DecidableEq

/-- A row of the append-only review_history table. -/
structure ReviewRow where
  nodeId : String
  quality : ℤ
  masteryBefore : ℚ
  masteryAfter : ℚ
  notes : Option String
  misconceptionDetected : Option String
deriving Repr, DecidableEq

/-- The three tables of the store. -/
structure GraphState where
  nodes : List NodeRec
  edges : List EdgeRec
  history : List ReviewRow
deriving Repr, DecidableEq

/-- Input model for creating a node (NodeCreate). -/
structure NodeCreate where
  concept : String
  description : Option String := none
  domain : Option String := none
  difficulty : ℚ := 1/2
  tags : List String := []
  node_id : Option String := none
deriving Repr, DecidableEq

/-- Input model for creating an edge (EdgeCreate). -/
structure EdgeCreate where
  source_id : String
  target_id : String
  relation_type : RelationType
  strength : ℚ := 1
  reasoning : Option String := none
deriving Repr, DecidableEq

/-- Patch model for update_node (NodeUpdate). -/
structure NodeUpdatePatch where
  concept : Option String := none
  description : Option String := none
  domain : Option String := none
  difficulty : Option ℚ := none
  mastery_level : Option ℚ := none
  mastery_recall : Option ℚ := none
  mastery_application : Option ℚ := none
  mastery_explanation : Option ℚ := none
  quality : Option ℤ := none
  misconception_detected : Option String := none
  notes : Option String := none
deriving Repr, DecidableEq

/-- Characters kept by the regex class [a-z0-9]. -/
def isAllowedChar (c : Char) : Bool :=
  (97 ≤ c.toNat && c.toNat ≤ 122) || (48 ≤ c.toNat && c.toNat ≤ 57)

/-- re.sub of one underscore for each maximal run of characters outside
[a-z0-9]. -/
def collapseRuns : List Char → List Char
  | [] => []
  | [c] => if isAllowedChar c then [c] else ['_']
  | c :: d :: rest =>
    if isAllowedChar c then c :: collapseRuns (d :: rest)
    else if isAllowedChar d then '_' :: collapseRuns (d :: rest)
    else collapseRuns (d :: rest)

/-- Python str.strip of underscores from both ends. -/
def stripUnderscores (l : List Char) : List Char :=
  ((l.dropWhile (fun c => c = '_')).reverse.dropWhile (fun c => c = '_')).reverse

/-- _generate_node_id: lowercase, collapse non-alphanumeric runs to one
underscore, strip underscores at the ends, fall back to the fixed id. -/
def generateNodeId (concept : String) : String :=
  let lowered := concept.data.map Char.toLower
  let collapsed := stripUnderscores (collapseRuns lowered)
  if collapsed = [] then "node" else String.mk collapsed

/-- add_node: derive the id when node_id is absent or empty (Python or),
reject an existing id, insert with zero mastery and default scheduling. -/
def addNode (st : GraphState) (nc : NodeCreate) : Except String (GraphState × NodeRec) :=
  let nodeId :=
    match nc.node_id with
    | some s => if s = "" then generateNodeId nc.concept else s
    | none => generateNodeId nc.concept
  if st.nodes.any (fun n => n.id = nodeId) then
    .error ("Node with ID '" ++ nodeId ++ "' already exists")
  else
    let node : NodeRec := {
      id := nodeId,
      concept := nc.concept,
      description := nc.description,
      domain := nc.domain,
      difficulty := nc.difficulty,
      tags := nc.tags }
    .ok ({ st with nodes := st.nodes ++ [node] }, node)

/-- One optional filter of get_edges; an absent or empty value places no
constraint (Python truthiness of the string). -/
def matchesFilter (v : Option String) (field : String) : Bool :=
  match v with
  | none => true
  | some s => if s = "" then true else field = s

/-- get_edges with optional source, target and relation-type filters. -/
def getEdges (st : GraphState) (sourceId targetId : Option String)
    (rel : Option RelationType) : List EdgeRec :=
  st.edges.filter (fun e =>
    matchesFilter sourceId e.source && matchesFilter targetId e.target &&
    (match rel with | none => true | some r => e.relType = r))

/-- delete_node with the ON DELETE CASCADE semantics of the schema:
removing the node row removes the edges and history rows that reference
it; a missing id removes nothing and reports false. -/
def deleteNode (st : GraphState) (nodeId : String) : GraphState × Bool :=
  if st.nodes.any (fun n => n.id = nodeId) then
    ({ nodes := st.nodes.filter (fun n => ¬ n.id = nodeId),
       edges := st.edges.filter (fun e => ¬ e.source = nodeId ∧ ¬ e.target = nodeId),
       history := st.history.filter (fun h => ¬ h.nodeId = nodeId) }, true)
  else (st, false)

/-- The prerequisites of a node: sources of PREREQUISITE edges into it. -/
def prereqSources (edges : List EdgeRec) (nodeId : String) : List String :=
  (edges.filter (fun e => e.target = nodeId ∧ e.relType = RelationType.prerequisite)).map
    (fun e => e.source)

/-- The BFS worklist of _would_create_cycle: pop, succeed on reaching the
source id, skip visited nodes, otherwise enqueue the prerequisites of the
popped node.  Fuel only bounds the loop; it is sized so that it never
runs out (each pop consumes one unit and at most one entry ever enters
the queue per initial entry or per visited node and edge). -/
def wouldCreateCycleAux (edges : List EdgeRec) (sourceId : String) :
    ℕ → List String → List String → Bool
  | 0, _, _ => false
  | _ + 1, [], _ => false
  | fuel + 1, current :: queue, visited =>
    if current = sourceId then true
    else if current ∈ visited then wouldCreateCycleAux edges sourceId fuel queue visited
    else wouldCreateCycleAux edges sourceId fuel (queue ++ prereqSources edges current)
      (visited ++ [current])

/-- _would_create_cycle: BFS from the target of the candidate edge along
prerequisite edges backward, reporting true when the source is reached. -/
def wouldCreateCycle (edges : List EdgeRec) (sourceId targetId : String) : Bool :=
  wouldCreateCycleAux edges sourceId ((edges.length + 1) * (edges.length + 2)) [targetId] []

/-- add_edge: endpoint existence, the cycle check for PREREQUISITE edges,
the duplicate check, then insertion. -/
def addEdge (st : GraphState) (ec : EdgeCreate) : Except String (GraphState × EdgeRec) :=
  if ¬ st.nodes.any (fun n => n.id = ec.source_id) then
    .error ("Source node '" ++ ec.source_id ++ "' not found")
  else if ¬ st.nodes.any (fun n => n.id = ec.target_id) then
    .error ("Target node '" ++ ec.target_id ++ "' not found")
  else if ec.relation_type = RelationType.prerequisite
      && wouldCreateCycle st.edges ec.source_id ec.target_id then
    .error ("Adding prerequisite edge from '" ++ ec.source_id ++ "' to '"
      ++ ec.target_id ++ "' would create a cycle")
  else if st.edges.any (fun e => e.source = ec.source_id && e.target = ec.target_id
      && e.relType = ec.relation_type) then
    .error "Edge already exists"
  else
    let edge : EdgeRec := {
      source := ec.source_id,
      target := ec.target_id,
      relType := ec.relation_type,
      strength := ec.strength,
      reasoning := ec.reasoning }
    .ok ({ st with edges := st.edges ++ [edge] }, edge)

/-- Abstraction of datetime.now() + timedelta(days=d) as an opaque string. -/
def addDays (now : String) (d : ℤ) : String :=
  now ++ "+" ++ toString d

/-- update_node: find the row, merge the patch following the order of the
source (scalar fields; mastery dimensions with recomputation of the
overall level; explicit mastery_level override; spaced-repetition block
with suggested-mastery override and the history insert; misconception
append under Python truthiness), then persist only when the updates
dict is nonempty. -/
def updateNode (st : GraphState) (nodeId : String) (patch : NodeUpdatePatch) (now : String) :
    Except String (GraphState × NodeRec) :=
  match st.nodes.find? (fun n => n.id = nodeId) with
  | none => .error ("Node '" ++ nodeId ++ "' not found")
  | some current =>
    let dimsPresent : Bool := patch.mastery_recall.isSome
      || patch.mastery_application.isSome || patch.mastery_explanation.isSome
    let mRecall := patch.mastery_recall.getD current.masteryRecall
    let mApp := patch.mastery_application.getD current.masteryApplication
    let mExpl := patch.mastery_explanation.getD current.masteryExplanation
    let mastery1 := if dimsPresent then calculateOverallMastery mRecall mApp mExpl
      else current.masteryLevel
    let mastery2 := patch.mastery_level.getD mastery1
    let sm2Res : Except String (Option SM2Result) :=
      match patch.quality with
      | none => .ok none
      | some q =>
        match calculateNextReview q current.difficulty current.easeFactor
          current.intervalDays current.repetitions current.masteryLevel with
        | none => .error "Quality must be between 0 and 5"
        | some r => .ok (some r)
    match sm2Res with
    | .error msg => .error msg
    | .ok sm2 =>
      let mastery3 := match sm2 with
        | some r => r.suggested_mastery.getD mastery2
        | none => mastery2
      let misconceptionApplies : Bool := match patch.misconception_detected with
        | some m => ¬ m = ""
        | none => false
      let newMisconceptions := match patch.misconception_detected with
        | some m => if m ∈ current.misconceptions then current.misconceptions
          else current.misconceptions ++ [m]
        | none => current.misconceptions
      let hasUpdates : Bool := patch.concept.isSome || patch.description.isSome
        || patch.domain.isSome || patch.difficulty.isSome || dimsPresent
        || patch.mastery_level.isSome || patch.quality.isSome || misconceptionApplies
      let node : NodeRec :=
        { id := current.id
          concept := patch.concept.getD current.concept
          description := if patch.description.isSome then patch.description
            else current.description
          domain := if patch.domain.isSome then patch.domain else current.domain
          masteryLevel := mastery3
          masteryRecall := if dimsPresent then mRecall else current.masteryRecall
          masteryApplication := if dimsPresent then mApp else current.masteryApplication
          masteryExplanation := if dimsPresent then mExpl else current.masteryExplanation
          difficulty := patch.difficulty.getD current.difficulty
          easeFactor := (match sm2 with
            | some r => r.ease_factor
            | none => current.easeFactor)
          intervalDays := (match sm2 with
            | some r => r.interval_days
            | none => current.intervalDays)
          repetitions := (match sm2 with
            | some r => r.repetitions
            | none => current.repetitions)
          lastReviewedAt := if patch.quality.isSome then some now else current.lastReviewedAt
          nextReviewAt := (match sm2 with
            | some r => some (addDays now r.interval_days)
            | none => current.nextReviewAt)
          reviewCount := if patch.quality.isSome then current.reviewCount + 1
            else current.reviewCount
          tags := current.tags
          misconceptions := if misconceptionApplies then newMisconceptions
            else current.misconceptions
          createdAt := current.createdAt
          updatedAt := now }
      let historyRows : List ReviewRow := match patch.quality with
        | some q => [{
            nodeId := nodeId,
            quality := q,
            masteryBefore := current.masteryLevel,
            masteryAfter := mastery3,
            notes := patch.notes,
            misconceptionDetected := patch.misconception_detected }]
        | none => []
      if hasUpdates then
        .ok ({ nodes := st.nodes.map (fun n => if n.id = nodeId then node else n),
               edges := st.edges,
               history := st.history ++ historyRows }, node)
      else .ok (st, current)

/-- Inner loop of get_subgraph over the edges fetched for one frontier
node: every edge is collected; the node at the picked end is marked
visited and enqueued at depth d1 when unseen. -/
def collectEdges (pick : EdgeRec → String) (d1 : ℕ) :
    List EdgeRec → List String → List (String × ℕ) → List EdgeRec →
    List String × List (String × ℕ) × List EdgeRec
  | [], visited, queue, eds => (visited, queue, eds)
  | e :: rest, visited, queue, eds =>
    let other := pick e
    if other ∈ visited then collectEdges pick d1 rest visited queue (eds ++ [e])
    else collectEdges pick d1 rest (visited ++ [other]) (queue ++ [(other, d1)]) (eds ++ [e])

/-- The upstream half of one BFS step: when the direction asks for it,
collect the edges targeting the current node, picking their sources. -/
def subgraphUpstream (st : GraphState) (direction cur : String) (d : ℕ)
    (s : List String × List (String × ℕ) × List EdgeRec) :
    List String × List (String × ℕ) × List EdgeRec :=
  if direction = "upstream" || direction = "both" then
    collectEdges (fun e => e.source) (d + 1)
      (st.edges.filter (fun e => e.target = cur)) s.1 s.2.1 s.2.2
  else s

/-- The downstream half of one BFS step: when the direction asks for it,
collect the edges leaving the current node, picking their targets. -/
def subgraphDownstream (st : GraphState) (direction cur : String) (d : ℕ)
    (s : List String × List (String × ℕ) × List EdgeRec) :
    List String × List (String × ℕ) × List EdgeRec :=
  if direction = "downstream" || direction = "both" then
    collectEdges (fun e => e.target) (d + 1)
      (st.edges.filter (fun e => e.source = cur)) s.1 s.2.1 s.2.2
  else s

/-- Main BFS worklist of get_subgraph.  A frontier entry at depth d is
skipped when d has reached the bound; otherwise the upstream edges
(those targeting the node) and the downstream edges (those leaving it)
are collected according to the direction.  Fuel is sized so that it
never runs out. -/
def getSubgraphAux (st : GraphState) (depth : ℕ) (direction : String) :
    ℕ → List (String × ℕ) → List String → List EdgeRec → List String × List EdgeRec
  | 0, _, visited, eds => (visited, eds)
  | _ + 1, [], visited, eds => (visited, eds)
  | fuel + 1, (cur, d) :: queue, visited, eds =>
    if depth ≤ d then getSubgraphAux st depth direction fuel queue visited eds
    else
      let s2 := subgraphDownstream st direction cur d
        (subgraphUpstream st direction cur d (visited, queue, eds))
      getSubgraphAux st depth direction fuel s2.2.1 s2.1 s2.2.2

/-- The visited id list and collected edge list of get_subgraph. -/
def getSubgraphData (st : GraphState) (center : String) (depth : ℕ) (direction : String) :
    List String × List EdgeRec :=
  getSubgraphAux st depth direction (2 * st.edges.length + 2) [(center, 0)] [center] []

/-- get_subgraph: the visited node rows (one fetch per visited id,
skipping ids without a row) and the collected edges. -/
def getSubgraph (st : GraphState) (center : String) (depth : ℕ) (direction : String) :
    List NodeRec × List EdgeRec :=
  let data := getSubgraphData st center depth direction
  (data.1.filterMap (fun i => st.nodes.find? (fun n => n.id = i)), data.2)

/-- The PREREQUISITE edges with both endpoints inside the node set, as
source-target pairs with multiplicity, in edge-list order. -/
def restrictedPrereq (nodeIds : List String) (edges : List EdgeRec) : List (String × String) :=
  (edges.filter (fun e => e.relType = RelationType.prerequisite
    && e.source ∈ nodeIds && e.target ∈ nodeIds)).map (fun e => (e.source, e.target))

/-- All PREREQUISITE edges of an edge list as source-target pairs. -/
def prereqPairs (edges : List EdgeRec) : List (String × String) :=
  (edges.filter (fun e => e.relType = RelationType.prerequisite)).map
    (fun e => (e.source, e.target))

/-- Decrement the in-degree of every out-neighbor of the popped node,
appending a neighbor to the queue exactly when its count reaches zero. -/
def processNeighbors : List String → (String → ℤ) → List String → (String → ℤ) × List String
  | [], deg, queue => (deg, queue)
  | n :: rest, deg, queue =>
    let d := deg n - 1
    let degN : String → ℤ := fun m => if m = n then d else deg m
    processNeighbors rest degN (if d = 0 then queue ++ [n] else queue)

/-- Kahn worklist: pop a node, emit it, update the degrees of its
out-neighbors.  Fuel is the size of the node set, which suffices
because every popped node is emitted and emitted nodes are distinct. -/
def kahnRun (adj : String → List String) :
    ℕ → List String → (String → ℤ) → List String → List String
  | 0, _, _, result => result
  | _ + 1, [], _, result => result
  | fuel + 1, n :: queue, deg, result =>
    let s := processNeighbors (adj n) deg queue
    kahnRun adj fuel s.2 s.1 (result ++ [n])

/-- The adjacency list: targets of the pairs leaving u, with
multiplicity, in order. -/
def adjOf (pairs : List (String × String)) (u : String) : List String :=
  (pairs.filter (fun p => p.1 = u)).map (fun p => p.2)

/-- The initial in-degree: the number of pairs into n. -/
def degOf (pairs : List (String × String)) (n : String) : ℤ :=
  (pairs.countP (fun p => p.2 = n) : ℤ)

/-- _topological_sort: Kahn's algorithm over the PREREQUISITE edges
restricted to the given node set. -/
def topologicalSort (nodeIds : List String) (edges : List EdgeRec) : List String :=
  let pairs := restrictedPrereq nodeIds edges
  kahnRun (adjOf pairs) nodeIds.length
    (nodeIds.filter (fun n => degOf pairs n = 0)) (degOf pairs) []

/-- One directed step along a pair list. -/
def edgeIn (pairs : List (String × String)) (u v : String) : Prop := (u, v) ∈ pairs

/-- No nonempty directed walk returns to its starting node. -/
def Acyclic (pairs : List (String × String)) : Prop :=
  ∀ n, ¬ Relation.TransGen (edgeIn pairs) n n

/-- A state with two nodes and one edge, used to exercise delete_node
with the empty-string id. -/
def c5State : GraphState :=
  { nodes := [{ id := "x", concept := "X" }, { id := "y", concept := "Y" }],
    edges := [{ source := "x", target := "y", relType := RelationType.prerequisite }],
    history := [] }

/-- A state with nodes a and b and the PREREQUISITE edge from b to a. -/
def c1State : GraphState :=
  { nodes := [{ id := "a", concept := "A" }, { id := "b", concept := "B" }],
    edges := [{ source := "b", target := "a", relType := RelationType.prerequisite }],
    history := [] }

/-- The candidate PREREQUISITE edge from a to b, which closes a cycle. -/
def c1Edge : EdgeCreate :=
  { source_id := "a", target_id := "b", relation_type := RelationType.prerequisite }

/-- The row inserted for the candidate edge. -/
def c1NewEdge : EdgeRec :=
  { source := "a", target := "b", relType := RelationType.prerequisite }

/-- The state after the insertion. -/
def c1StateAfter : GraphState :=
  { c1State with edges := c1State.edges ++ [c1NewEdge] }

/-- The three visited-list properties propagated through one stage. -/
def StageOk (st : GraphState) (visited : List String)
    (s : List String × List (String × ℕ) × List EdgeRec) : Prop :=
  s.1.Nodup ∧
  (∀ x ∈ s.1, x ∈ visited ∨ ∃ e ∈ st.edges, x = e.source ∨ x = e.target) ∧
  (∀ x ∈ visited, x ∈ s.1)

/-- Nodes and the edge of the duplicate-collection example. -/
def c8DemoEdge : EdgeRec :=
  { source := "a", target := "b", relType := RelationType.prerequisite }

/-- A two-node state whose single edge is reachable from both of its
endpoints within two hops of the center. -/
def c8DemoState : GraphState :=
  { nodes := [{ id := "a", concept := "A" }, { id := "b", concept := "B" }],
    edges := [c8DemoEdge],
    history := [] }

/-- The scheduler result of the quality 5 first-success scenario. -/
def sm2ResQ5 : SM2Result :=
  { ease_factor := 13/5, interval_days := 1, repetitions := 1, suggested_mastery := some (2/5) }

/-- The scheduler result of the quality 2 failure scenario. -/
def sm2ResQ2 : SM2Result :=
  { ease_factor := 109/50, interval_days := 1, repetitions := 0, suggested_mastery := some (1/4) }

/-- The node of the C3 witness, with the default scheduling state. -/
def c3DemoNode : NodeRec := { id := "x", concept := "X" }

/-- The one-node state of the C3 witness. -/
def c3DemoState : GraphState := { nodes := [c3DemoNode], edges := [], history := [] }

/-- A patch carrying a mastery dimension, an explicit mastery level and
a quality rating at once. -/
def c3DemoPatch : NodeUpdatePatch :=
  { mastery_recall := some 1, mastery_level := some (9/10), quality := some 5 }

/-- The node list of the C4 witness. -/
def c4DemoV : List String := ["a", "b", "c"]

/-- A two-edge prerequisite chain. -/
def c4DemoEdges : List EdgeRec :=
  [{ source := "a", target := "b", relType := RelationType.prerequisite },
   { source := "b", target := "c", relType := RelationType.prerequisite }]

/-- A rank function certifying acyclicity of the witness chain. -/
def c4Rank : String → ℕ := fun s => if s = "a" then 0 else if s = "b" then 1 else 2

/-- The state of the C5 witness: two nodes, one edge, one history row. -/
def c5WitState : GraphState :=
  { nodes := [{ id := "x", concept := "X" }, { id := "y", concept := "Y" }],
    edges := [{ source := "x", target := "y", relType := RelationType.prerequisite }],
    history := [{
      nodeId := "x",
      quality := 5,
      masteryBefore := 0,
      masteryAfter := 2/5,
      notes := none,
      misconceptionDetected := none }] }

/-- The node of the C9 witness. -/
def c9DemoNode : NodeRec := { id := "z", concept := "Z" }

/-- The one-node state of the C9 witness. -/
def c9DemoState : GraphState := { nodes := [c9DemoNode], edges := [], history := [] }

/-- The empty starting state of the C10 witness. -/
def c10State0 : GraphState := { nodes := [], edges := [], history := [] }

/-- The node created from the first all-punctuation concept. -/
def c10Node : NodeRec := { id := "node", concept := "!!!" }

/-- The state after the first insertion. -/
def c10State1 : GraphState := { nodes := [c10Node], edges := [], history := [] }

/-! # Theorems -/

theorem pyRound_intCast (n : ℤ) : pyRound (n : ℚ) = n := by
  unfold pyRound
  rw [Int.floor_intCast]
  have h1 : ((n : ℚ)) - (n : ℚ) = 0 := by ring
  rw [h1]
  have h4 : ⌊(n : ℚ) + 1/2⌋ = n := by
    rw [Int.floor_eq_iff]
    constructor
    · norm_num
    · linarith
  rw [h4]
  norm_num

theorem floor_le_pyRound (x : ℚ) : ⌊x⌋ ≤ pyRound x := by
  unfold pyRound
  split
  · split <;> omega
  · exact Int.floor_mono (by linarith)

theorem pyRound_le_floor_half (x : ℚ) : pyRound x ≤ ⌊x + 1/2⌋ := by
  unfold pyRound
  split
  · next h =>
    have hx : x = (⌊x⌋ : ℚ) + 1/2 := by linarith
    have h2 : x + 1/2 = ((⌊x⌋ + 1 : ℤ) : ℚ) := by push_cast; linarith
    rw [h2, Int.floor_intCast]
    split <;> omega
  · exact le_refl _

theorem pyRound_mono {x y : ℚ} (h : x ≤ y) : pyRound x ≤ pyRound y := by
  rcases eq_or_lt_of_le h with rfl | hlt
  · exact le_refl _
  by_cases hy : y - (⌊y⌋ : ℚ) = 1/2
  · have h1 : pyRound x ≤ ⌊x + 1/2⌋ := pyRound_le_floor_half x
    have h2 : ⌊x + 1/2⌋ ≤ ⌊y⌋ := by
      have hxy : x + 1/2 < ((⌊y⌋ + 1 : ℤ) : ℚ) := by push_cast; linarith
      have := Int.floor_lt.mpr hxy
      omega
    have h3 : ⌊y⌋ ≤ pyRound y := floor_le_pyRound y
    omega
  · have hpy : pyRound y = ⌊y + 1/2⌋ := by unfold pyRound; rw [if_neg hy]
    rw [hpy]
    exact le_trans (pyRound_le_floor_half x) (Int.floor_mono (by linarith))

/-- Evaluation rule: if x lies strictly below the midpoint of [n, n+1],
Python round gives n. -/
theorem pyRound_eq_low {x : ℚ} {n : ℤ} (h1 : (n : ℚ) ≤ x) (h2 : x < (n : ℚ) + 1/2) :
    pyRound x = n := by
  have hfl : ⌊x⌋ = n := by
    rw [Int.floor_eq_iff]
    exact ⟨h1, by linarith⟩
  unfold pyRound
  rw [hfl]
  have hne : ¬ (x - (n : ℚ) = 1/2) := by intro hc; linarith
  rw [if_neg hne]
  rw [Int.floor_eq_iff]
  constructor
  · linarith
  · linarith

/-- Evaluation rule: if x lies strictly above the midpoint of [n, n+1],
Python round gives n + 1. -/
theorem pyRound_eq_high {x : ℚ} {n : ℤ} (h1 : (n : ℚ) + 1/2 < x) (h2 : x < (n : ℚ) + 1) :
    pyRound x = n + 1 := by
  have hfl : ⌊x⌋ = n := by
    rw [Int.floor_eq_iff]
    exact ⟨by linarith, by linarith⟩
  unfold pyRound
  rw [hfl]
  have hne : ¬ (x - (n : ℚ) = 1/2) := by intro hc; linarith
  rw [if_neg hne]
  rw [Int.floor_eq_iff]
  constructor
  · push_cast; linarith
  · push_cast; linarith

theorem pyRound2_mono {x y : ℚ} (h : x ≤ y) : pyRound2 x ≤ pyRound2 y := by
  unfold pyRound2
  have h1 : pyRound (100 * x) ≤ pyRound (100 * y) := pyRound_mono (by linarith)
  have h2 : ((pyRound (100 * x) : ℤ) : ℚ) ≤ ((pyRound (100 * y) : ℤ) : ℚ) := by
    exact_mod_cast h1
  linarith

/-- Evaluation rule for two-decimal rounding at an exact hundredth. -/
theorem pyRound2_eval {x : ℚ} {k : ℤ} (h : 100 * x = (k : ℚ)) : pyRound2 x = (k : ℚ) / 100 := by
  unfold pyRound2
  rw [h, pyRound_intCast]

theorem pyRound2_hundredth (k : ℤ) : pyRound2 ((k : ℚ) / 100) = (k : ℚ) / 100 :=
  pyRound2_eval (by ring)

theorem pyRound2_ge_13_10 {x : ℚ} (h : 13/10 ≤ x) : 13/10 ≤ pyRound2 x := by
  have h1 : pyRound2 ((130 : ℤ) / 100) ≤ pyRound2 x := pyRound2_mono (by push_cast; linarith)
  rw [pyRound2_hundredth] at h1
  norm_num at h1
  linarith

/-- Concrete run of the scheduler at quality 5, difficulty 0.5, ease 2.5,
interval 0, repetitions 0, mastery 0 (the first-success scenario). -/
theorem sm2_eval_q5 : calculateNextReview 5 (1/2) (5/2) 0 0 0 =
    some { ease_factor := 13/5, interval_days := 1, repetitions := 1,
           suggested_mastery := some (2/5) } := by
  unfold calculateNextReview sm2PreInterval sm2NewEase calculateSuggestedMastery
  have hmax : max ((13:ℚ)/10) ((5:ℚ)/2 + (1/10 - ((5:ℚ) - (5:ℤ)) * (2/25 + ((5:ℚ) - (5:ℤ)) * (1/50)))) = 13/5 := by
    push_cast
    rw [max_eq_right (by norm_num)]
    norm_num
  rw [hmax]
  norm_num
  refine ⟨?_, ?_, ?_, ?_⟩
  · rw [pyRound2_eval (x := (13:ℚ)/5) (k := 260) (by norm_num)]
    norm_num
  · have hr : pyRound ((17:ℚ)/20) = 1 := by
      have := pyRound_eq_high (x := (17:ℚ)/20) (n := 0) (by norm_num) (by norm_num)
      simpa using this
    exact le_of_eq hr
  · rw [abs_of_nonneg (by norm_num)]
    norm_num
  · rw [pyRound2_eval (x := (2:ℚ)/5) (k := 40) (by norm_num)]
    norm_num

/-- Concrete run of the scheduler at quality 2, difficulty 0.5, ease 2.5,
interval 10, repetitions 3 (the failure scenario). -/
theorem sm2_eval_q2 : calculateNextReview 2 (1/2) (5/2) 10 3 0 =
    some { ease_factor := 109/50, interval_days := 1, repetitions := 0,
           suggested_mastery := some (1/4) } := by
  unfold calculateNextReview sm2PreInterval sm2NewEase calculateSuggestedMastery
  have hmax : max ((13:ℚ)/10) ((5:ℚ)/2 + (1/10 - ((5:ℚ) - (2:ℤ)) * (2/25 + ((5:ℚ) - (2:ℤ)) * (1/50)))) = 109/50 := by
    push_cast
    rw [max_eq_right (by norm_num)]
    norm_num
  rw [hmax]
  norm_num
  refine ⟨?_, ?_, ?_, ?_⟩
  · rw [pyRound2_eval (x := (109:ℚ)/50) (k := 218) (by norm_num)]
    norm_num
  · have hr : pyRound ((17:ℚ)/20) = 1 := by
      have := pyRound_eq_high (x := (17:ℚ)/20) (n := 0) (by norm_num) (by norm_num)
      simpa using this
    exact le_of_eq hr
  · rw [abs_of_nonneg (by norm_num)]
    norm_num
  · rw [pyRound2_eval (x := (1:ℚ)/4) (k := 25) (by norm_num)]
    norm_num

/-- A rank function that strictly increases along every edge certifies
acyclicity. -/
theorem acyclic_of_rank (pairs : List (String × String)) (f : String → ℕ)
    (h : ∀ p ∈ pairs, f p.1 < f p.2) : Acyclic pairs := by
  intro n hn
  have key : ∀ a b, Relation.TransGen (edgeIn pairs) a b → f a < f b := by
    intro a b hab
    induction hab with
    | single h1 => exact h _ h1
    | tail _ h1 ih => exact lt_trans ih (h _ h1)
  exact lt_irrefl _ (key n n hn)

theorem collapseRuns_all_bad :
    ∀ (l : List Char), (∀ c ∈ l, isAllowedChar c = false) → l ≠ [] → collapseRuns l = ['_'] := by
  intro l
  induction l with
  | nil => intro _ h; exact absurd rfl h
  | cons c t ih =>
    intro hall _
    cases t with
    | nil =>
      have hc := hall c (by simp)
      simp [collapseRuns, hc]
    | cons d rest =>
      have hc := hall c (by simp)
      have hd := hall d (by simp)
      have ht : ∀ x ∈ d :: rest, isAllowedChar x = false := by
        intro x hx
        exact hall x (List.mem_cons_of_mem c hx)
      simp [collapseRuns, hc, hd]
      exact ih ht (by simp)

theorem generateNodeId_all_bad (concept : String)
    (h : ∀ ch ∈ concept.data, isAllowedChar ch.toLower = false) :
    generateNodeId concept = "node" := by
  simp only [generateNodeId]
  by_cases hexp : concept.data = []
  · simp [hexp, collapseRuns, stripUnderscores]
  · have hall : ∀ c ∈ concept.data.map Char.toLower, isAllowedChar c = false := by
      intro c hc
      obtain ⟨ch, hch, rfl⟩ := List.mem_map.mp hc
      exact h ch hch
    have hcoll : collapseRuns (concept.data.map Char.toLower) = ['_'] :=
      collapseRuns_all_bad _ hall (by simpa using hexp)
    rw [hcoll]
    simp [stripUnderscores]

theorem generateNodeId_ne_empty (concept : String) : ¬ generateNodeId concept = "" := by
  simp only [generateNodeId]
  split
  · intro h
    exact absurd (congrArg String.data h) (by simp)
  · next hne =>
    intro h
    exact hne (by simpa using congrArg String.data h)

/-- C10: when add_node derives the node id from the concept, the id is the
lowercased concept with each maximal run of characters outside [a-z0-9]
collapsed to one underscore and underscores stripped from the ends, with
the fixed fallback id for an empty result; the derived id is never empty,
every concept whose lowercasing contains no character in [a-z0-9] maps to
the fixed fallback id, and a second derived add_node call for such a
concept is rejected as a duplicate id. -/
theorem c10_generated_id (st st1 : GraphState) (c1 c2 : String) (n1 : NodeRec)
    (h1 : ∀ ch ∈ c1.data, isAllowedChar ch.toLower = false)
    (h2 : ∀ ch ∈ c2.data, isAllowedChar ch.toLower = false)
    (hadd : addNode st { concept := c1 } = .ok (st1, n1)) :
    (∀ c : String, ¬ generateNodeId c = "") ∧
    generateNodeId c1 = "node" ∧ generateNodeId c2 = "node" ∧
    addNode st1 { concept := c2 } = .error "Node with ID 'node' already exists" := by
  refine ⟨generateNodeId_ne_empty, generateNodeId_all_bad c1 h1, generateNodeId_all_bad c2 h2, ?_⟩
  unfold addNode at hadd ⊢
  rw [generateNodeId_all_bad c1 h1] at hadd
  rw [generateNodeId_all_bad c2 h2]
  by_cases hdup : st.nodes.any (fun n => n.id = "node")
  · rw [if_pos hdup] at hadd
    exact absurd hadd (by simp)
  · rw [if_neg hdup] at hadd
    simp only [Except.ok.injEq, Prod.mk.injEq] at hadd
    obtain ⟨hst1, _⟩ := hadd
    rw [← hst1]
    simp

/-- C9: updating an existing node with the empty patch writes nothing:
the state (all nodes, edges and history, including the timestamps of the
updated node) is returned unchanged, along with the untouched node row. -/
theorem c9_empty_patch (st : GraphState) (nodeId now : String) (nd : NodeRec)
    (hfind : st.nodes.find? (fun n => n.id = nodeId) = some nd) :
    updateNode st nodeId {} now = .ok (st, nd) := by
  unfold updateNode
  rw [hfind]
  rfl

/-- C5 counterexample: deleting the absent empty-string id returns false,
but get_edges filtered by that id as source does not return the empty
list, because an empty string is a falsy filter value and acts as a
wildcard: the unrelated edge of the state is returned. -/
theorem c5_counterexample :
    (deleteNode c5State "").2 = false ∧
    (getEdges (deleteNode c5State "").1 (some "") none none).length = 1 ∧
    (getEdges (deleteNode c5State "").1 none (some "") none).length = 1 := by
  refine ⟨rfl, rfl, rfl⟩

/-- C5 as amended: for a nonempty id, on a state satisfying referential
integrity, delete_node removes the node row, every edge referencing the
id and every history row referencing it, reports whether a node row was
removed, and afterwards get_edges filtered by the id as source or as
target returns the empty list. -/
theorem c5_cascade (st : GraphState) (nodeId : String)
    (hid : ¬ nodeId = "")
    (hriE : ∀ e ∈ st.edges,
      (∃ n ∈ st.nodes, n.id = e.source) ∧ (∃ n ∈ st.nodes, n.id = e.target))
    (hriH : ∀ h ∈ st.history, ∃ n ∈ st.nodes, n.id = h.nodeId) :
    ((deleteNode st nodeId).2 = st.nodes.any (fun n => n.id = nodeId)) ∧
    (deleteNode st nodeId).1.nodes = st.nodes.filter (fun n => ¬ n.id = nodeId) ∧
    (deleteNode st nodeId).1.edges
      = st.edges.filter (fun e => ¬ e.source = nodeId ∧ ¬ e.target = nodeId) ∧
    (deleteNode st nodeId).1.history = st.history.filter (fun h => ¬ h.nodeId = nodeId) ∧
    getEdges (deleteNode st nodeId).1 (some nodeId) none none = [] ∧
    getEdges (deleteNode st nodeId).1 none (some nodeId) none = [] := by
  by_cases hp : st.nodes.any (fun n => n.id = nodeId) = true
  · have hdel : deleteNode st nodeId =
        ({ nodes := st.nodes.filter (fun n => ¬ n.id = nodeId),
           edges := st.edges.filter (fun e => ¬ e.source = nodeId ∧ ¬ e.target = nodeId),
           history := st.history.filter (fun h => ¬ h.nodeId = nodeId) }, true) := by
      unfold deleteNode
      rw [if_pos hp]
    rw [hdel, hp]
    refine ⟨rfl, rfl, rfl, rfl, ?_, ?_⟩
    · unfold getEdges
      rw [List.filter_eq_nil_iff]
      intro e he
      have := List.of_mem_filter he
      simp only [decide_eq_true_eq] at this
      simp [matchesFilter, hid, this.1]
    · unfold getEdges
      rw [List.filter_eq_nil_iff]
      intro e he
      have := List.of_mem_filter he
      simp only [decide_eq_true_eq] at this
      simp [matchesFilter, hid, this.2]
  · have hnone : ∀ n ∈ st.nodes, ¬ n.id = nodeId := by
      intro n hn hcontra
      exact hp (List.any_eq_true.mpr ⟨n, hn, by simp [hcontra]⟩)
    have hdel : deleteNode st nodeId = (st, false) := by
      unfold deleteNode
      rw [if_neg hp]
    have hE : ∀ e ∈ st.edges, ¬ e.source = nodeId ∧ ¬ e.target = nodeId := by
      intro e he
      obtain ⟨⟨n1, hn1, hs⟩, ⟨n2, hn2, ht⟩⟩ := hriE e he
      exact ⟨fun hc => hnone n1 hn1 (hs.trans hc), fun hc => hnone n2 hn2 (ht.trans hc)⟩
    rw [hdel]
    have hpf : st.nodes.any (fun n => n.id = nodeId) = false := by
      simp only [Bool.not_eq_true] at hp
      exact hp
    refine ⟨by rw [hpf], ?_, ?_, ?_, ?_, ?_⟩
    all_goals simp only []
    · rw [eq_comm, List.filter_eq_self]
      intro n hn
      simpa using hnone n hn
    · rw [eq_comm, List.filter_eq_self]
      intro e he
      simpa using hE e he
    · rw [eq_comm, List.filter_eq_self]
      intro h hh
      obtain ⟨n, hn, hid2⟩ := hriH h hh
      simpa using fun hc => hnone n hn (hid2.trans hc)
    · unfold getEdges
      rw [List.filter_eq_nil_iff]
      intro e he
      simp [matchesFilter, hid, (hE e he).1]
    · unfold getEdges
      rw [List.filter_eq_nil_iff]
      intro e he
      simp [matchesFilter, hid, (hE e he).2]

/-- C1: the cycle check walks from the target to its prerequisite sources,
so it detects an existing source-to-target path instead of the
target-to-source path that would close a cycle.  With only the
PREREQUISITE edge b to a present, adding the PREREQUISITE edge a to b
must fail with CycleDetected by the claim, but the check reports no
cycle, add_edge succeeds, and the resulting PREREQUISITE subgraph is
cyclic. -/
theorem c1_cycle_check_inverted :
    wouldCreateCycle c1State.edges "a" "b" = false ∧
    addEdge c1State c1Edge = .ok (c1StateAfter, c1NewEdge) ∧
    ¬ Acyclic (prereqPairs c1StateAfter.edges) := by
  refine ⟨rfl, rfl, ?_⟩
  intro hacyc
  apply hacyc "a"
  have h1 : edgeIn (prereqPairs c1StateAfter.edges) "a" "b" := by
    show ("a", "b") ∈ prereqPairs c1StateAfter.edges
    decide
  have h2 : edgeIn (prereqPairs c1StateAfter.edges) "b" "a" := by
    show ("b", "a") ∈ prereqPairs c1StateAfter.edges
    decide
  exact Relation.TransGen.head h1 (Relation.TransGen.single h2)

theorem sm2NewEase_ge (q : ℤ) (ef : ℚ) : 13/10 ≤ sm2NewEase q ef := by
  unfold sm2NewEase
  exact le_max_left _ _

/-- C2 counterexample: at quality 0 with current ease factor 1.0 (below
the 1.3 floor), the failure branch clamps the ease factor to the current
value, so the returned ease factor is 1.0, not at least 1.3. -/
theorem c2_counterexample :
    calculateNextReview 0 (1/2) 1 0 0 0 =
      some { ease_factor := 1, interval_days := 1, repetitions := 0,
             suggested_mastery := some (1/10) } ∧
    ¬ (13/10 ≤ (1 : ℚ)) := by
  constructor
  · unfold calculateNextReview sm2NewEase calculateSuggestedMastery
    have hmax : max ((13:ℚ)/10)
        ((1:ℚ) + (1/10 - ((5:ℚ) - (0:ℤ)) * (2/25 + ((5:ℚ) - (0:ℤ)) * (1/50)))) = 13/10 := by
      push_cast
      rw [max_eq_left (by norm_num)]
    rw [hmax]
    norm_num
    refine ⟨?_, ?_, ?_, ?_⟩
    · rw [pyRound2_eval (x := (1:ℚ)) (k := 100) (by norm_num)]
      norm_num
    · have hr : pyRound ((17:ℚ)/20) = 1 := by
        have := pyRound_eq_high (x := (17:ℚ)/20) (n := 0) (by norm_num) (by norm_num)
        simpa using this
      exact le_of_eq hr
    · rw [abs_of_nonneg (by norm_num)]
      norm_num
    · rw [pyRound2_eval (x := (1:ℚ)/10) (k := 10) (by norm_num)]
      norm_num
  · norm_num

/-- C2 as amended: calculate_next_review succeeds exactly when quality
lies in [0,5]; and whenever the current ease factor is at least 1.3 (as
every stored ease factor is), every successful result has ease factor at
least 1.3 and interval at least one day.  Without the bound on the
current ease factor the ease-factor conclusion is false (see the
counterexample). -/
theorem c2_ease_interval_bounds (q : ℤ) (d ef : ℚ) (i r : ℤ) (m : ℚ)
    (hef : 13/10 ≤ ef) :
    ((calculateNextReview q d ef i r m).isSome ↔ (0 ≤ q ∧ q ≤ 5)) ∧
    ∀ res, calculateNextReview q d ef i r m = some res →
      13/10 ≤ res.ease_factor ∧ 1 ≤ res.interval_days := by
  simp only [calculateNextReview]
  by_cases hq : 0 ≤ q ∧ q ≤ 5
  · rw [if_pos hq]
    refine ⟨by simp [hq], ?_⟩
    intro res hres
    rw [Option.some_inj] at hres
    subst hres
    dsimp only
    constructor
    · apply pyRound2_ge_13_10
      by_cases h3 : 3 ≤ q
      · rw [if_pos h3]
        exact sm2NewEase_ge q ef
      · rw [if_neg h3]
        exact le_min (sm2NewEase_ge q ef) hef
    · exact le_max_left 1 _
  · rw [if_neg hq]
    exact ⟨by simp [hq], fun res hres => absurd hres (by simp)⟩

/-- C6 counterexample: with current ease factor 1.296 (not a multiple of
a hundredth) and quality 2, the clamp keeps 1.296 but the final rounding
to two decimals raises it to 1.3, which exceeds the pre-update value. -/
theorem c6_counterexample :
    calculateNextReview 2 (1/2) (1296/1000) 0 0 0 =
      some { ease_factor := 13/10, interval_days := 1, repetitions := 0,
             suggested_mastery := some (1/4) } ∧
    ¬ ((13 : ℚ)/10 ≤ 1296/1000) := by
  constructor
  · unfold calculateNextReview sm2NewEase calculateSuggestedMastery
    have hmax : max ((13:ℚ)/10)
        ((1296:ℚ)/1000 + (1/10 - ((5:ℚ) - (2:ℤ)) * (2/25 + ((5:ℚ) - (2:ℤ)) * (1/50)))) = 13/10 := by
      push_cast
      rw [max_eq_left (by norm_num)]
    rw [hmax]
    norm_num
    refine ⟨?_, ?_, ?_, ?_⟩
    · have hround : pyRound ((100:ℚ) * (162/125)) = 130 := by
        have := pyRound_eq_high (x := (100:ℚ) * (162/125)) (n := 129) (by norm_num) (by norm_num)
        simpa using this
      unfold pyRound2
      rw [hround]
      norm_num
    · have hr : pyRound ((17:ℚ)/20) = 1 := by
        have := pyRound_eq_high (x := (17:ℚ)/20) (n := 0) (by norm_num) (by norm_num)
        simpa using this
      exact le_of_eq hr
    · rw [abs_of_nonneg (by norm_num)]
      norm_num
    · rw [pyRound2_eval (x := (1:ℚ)/4) (k := 25) (by norm_num)]
      norm_num
  · norm_num

/-- C6 as amended: on failure (quality below 3, within range), with
difficulty in [0,1] and a current ease factor expressible in hundredths
(as every stored ease factor is), the result resets repetitions to 0,
returns interval 1 after the difficulty adjustment and floor, and does
not increase the ease factor beyond the pre-update value; without the
hundredths restriction the last conclusion is false (see the
counterexample).  The quality 2 scenario of the specification holds. -/
theorem c6_failure_reset :
    (∀ (q : ℤ) (d ef : ℚ) (i r : ℤ) (m : ℚ) (k : ℤ),
      0 ≤ q → q < 3 → 0 ≤ d → d ≤ 1 → ef = (k : ℚ) / 100 →
      ∀ res, calculateNextReview q d ef i r m = some res →
        res.repetitions = 0 ∧ res.interval_days = 1 ∧ res.ease_factor ≤ ef) ∧
    calculateNextReview 2 (1/2) (5/2) 10 3 0 =
      some { ease_factor := 109/50, interval_days := 1, repetitions := 0,
             suggested_mastery := some (1/4) } := by
  refine ⟨?_, sm2_eval_q2⟩
  intro q d ef i r m k hq0 hq3 hd0 hd1 hefk res hres
  have h3 : ¬ 3 ≤ q := by omega
  simp only [calculateNextReview] at hres
  rw [if_pos ⟨hq0, by omega⟩] at hres
  rw [Option.some_inj] at hres
  subst hres
  dsimp only
  rw [if_neg h3, if_neg h3, if_neg h3]
  refine ⟨rfl, ?_, ?_⟩
  · have hcast : (((1:ℤ)) : ℚ) * (1 - d * (3/10)) = 1 - d * (3/10) := by push_cast; ring
    rw [hcast]
    have hlow : (7:ℚ)/10 ≤ 1 - d * (3/10) := by linarith
    have hhigh : 1 - d * (3/10) ≤ ((1:ℤ) : ℚ) := by push_cast; linarith
    have h7 : pyRound ((7:ℚ)/10) = 1 := by
      have := pyRound_eq_high (x := (7:ℚ)/10) (n := 0) (by norm_num) (by norm_num)
      simpa using this
    have h1r : pyRound (((1:ℤ)) : ℚ) = 1 := pyRound_intCast 1
    have hub := pyRound_mono hhigh
    have hlb := pyRound_mono hlow
    rw [h7] at hlb
    rw [h1r] at hub
    have : pyRound (1 - d * (3/10)) = 1 := le_antisymm hub hlb
    rw [this]
    exact max_self 1
  · have hmin : min (sm2NewEase q ef) ef ≤ ef := min_le_right _ _
    have := pyRound2_mono hmin
    calc pyRound2 (min (sm2NewEase q ef) ef) ≤ pyRound2 ef := this
      _ = ef := by rw [hefk, pyRound2_hundredth]

/-- C7: on success (quality in [3,5]), repetitions increment by one and
the interval is the difficulty-adjusted, floored value of the
pre-adjustment interval, which is 1 on the first success, 6 on the
second, and round(interval times the updated ease factor) afterwards.
The quality 5 first-success scenario of the specification holds. -/
theorem c7_success_progression :
    (∀ (q : ℤ) (d ef : ℚ) (i r : ℤ) (m : ℚ), 3 ≤ q → q ≤ 5 →
      ∀ res, calculateNextReview q d ef i r m = some res →
        res.repetitions = r + 1 ∧
        res.interval_days
          = max 1 (pyRound ((sm2PreInterval q i r ef : ℚ) * (1 - d * (3/10))))) ∧
    calculateNextReview 5 (1/2) (5/2) 0 0 0 =
      some { ease_factor := 13/5, interval_days := 1, repetitions := 1,
             suggested_mastery := some (2/5) } := by
  refine ⟨?_, sm2_eval_q5⟩
  intro q d ef i r m hq3 hq5 res hres
  simp only [calculateNextReview] at hres
  rw [if_pos ⟨by omega, hq5⟩] at hres
  rw [Option.some_inj] at hres
  subst hres
  dsimp only
  rw [if_pos hq3, if_pos hq3]
  exact ⟨rfl, rfl⟩

/-- C3: for a quality-bearing update of an existing node with a quality
the scheduler accepts, the stored mastery level is computed with this
precedence: recomputation from the merged dimensions (0.3/0.4/0.3) when
any dimension is patched, overridden by an explicit mastery_level in the
patch, overridden by the scheduler's mastery suggestion when present;
and the appended review-history row records the pre-update mastery as
mastery_before and the final mastery as mastery_after. -/
theorem c3_mastery_precedence (st : GraphState) (nodeId now : String)
    (patch : NodeUpdatePatch) (current : NodeRec) (q : ℤ) (sm2 : SM2Result)
    (hfind : st.nodes.find? (fun n => n.id = nodeId) = some current)
    (hq : patch.quality = some q)
    (hsm2 : calculateNextReview q current.difficulty current.easeFactor
      current.intervalDays current.repetitions current.masteryLevel = some sm2) :
    ∃ stNew node, updateNode st nodeId patch now = .ok (stNew, node) ∧
      node.masteryLevel = sm2.suggested_mastery.getD (patch.mastery_level.getD
        (if patch.mastery_recall.isSome || patch.mastery_application.isSome
            || patch.mastery_explanation.isSome then
          calculateOverallMastery (patch.mastery_recall.getD current.masteryRecall)
            (patch.mastery_application.getD current.masteryApplication)
            (patch.mastery_explanation.getD current.masteryExplanation)
        else current.masteryLevel)) ∧
      stNew.history = st.history ++ [{
        nodeId := nodeId,
        quality := q,
        masteryBefore := current.masteryLevel,
        masteryAfter := node.masteryLevel,
        notes := patch.notes,
        misconceptionDetected := patch.misconception_detected }] := by
  simp only [updateNode]
  rw [hfind, hq]
  simp only [updateNode, hsm2]
  have hupd : (patch.concept.isSome || patch.description.isSome
      || patch.domain.isSome || patch.difficulty.isSome
      || (patch.mastery_recall.isSome || patch.mastery_application.isSome
          || patch.mastery_explanation.isSome)
      || patch.mastery_level.isSome || (some q).isSome
      || (match patch.misconception_detected with
          | some m => decide (¬ m = "")
          | none => false)) = true := by
    simp
  rw [if_pos hupd]
  refine ⟨_, _, rfl, rfl, rfl⟩

theorem countP_ext (l : List (String × String)) (p q : String × String → Bool)
    (h : ∀ a ∈ l, p a = q a) : l.countP p = l.countP q := by
  induction l with
  | nil => rfl
  | cons a t ih =>
    rw [List.countP_cons, List.countP_cons, h a (by simp), ih (fun b hb => h b (by simp [hb]))]

theorem countP_split (l : List (String × String)) (p q : String × String → Bool) :
    l.countP (fun a => p a && q a) + l.countP (fun a => p a && !(q a)) = l.countP p := by
  induction l with
  | nil => rfl
  | cons a t ih =>
    rw [List.countP_cons, List.countP_cons, List.countP_cons]
    cases hp : p a <;> cases hq : q a <;> simp [hp, hq] <;> omega

theorem count_adjOf (pairs : List (String × String)) (u x : String) :
    (adjOf pairs u).count x = pairs.countP (fun p => p.1 = u && p.2 = x) := by
  unfold adjOf
  induction pairs with
  | nil => rfl
  | cons a t ih =>
    by_cases ha : a.1 = u
    · by_cases hax : a.2 = x
      · simp [List.filter_cons, ha, List.count_cons, hax, List.countP_cons, ih]
      · simp [List.filter_cons, ha, List.count_cons, hax, List.countP_cons, ih]
    · simp [List.filter_cons, ha, List.countP_cons, ih]

/-- Characterization of one neighbor-processing pass: degrees drop by
the multiplicity of the neighbor in the adjacency list, and a node joins
the queue exactly when its degree hits zero during the pass, which under
the degree lower bound happens exactly when its remaining in-degree
equals its multiplicity. -/
theorem processNeighbors_spec :
    ∀ (ns : List String) (deg : String → ℤ) (queue : List String),
      (∀ x ∈ queue, deg x = 0) →
      (∀ x, ((ns.count x : ℤ)) ≤ deg x) →
      (∀ x, (processNeighbors ns deg queue).1 x = deg x - ns.count x) ∧
      (∀ x, x ∈ (processNeighbors ns deg queue).2 ↔
        (x ∈ queue ∨ (0 < ns.count x ∧ deg x = (ns.count x : ℤ)))) ∧
      (queue.Nodup → (processNeighbors ns deg queue).2.Nodup) ∧
      (∀ x ∈ (processNeighbors ns deg queue).2, x ∈ queue ∨ x ∈ ns) := by
  intro ns
  induction ns with
  | nil =>
    intro deg queue hq0 hcnt
    refine ⟨fun x => by simp [processNeighbors], fun x => by simp [processNeighbors],
      fun h => by simpa [processNeighbors] using h, fun x hx => ?_⟩
    simp [processNeighbors] at hx
    exact Or.inl hx
  | cons n rest ih =>
    intro deg queue hq0 hcnt
    have hcn := hcnt n
    rw [List.count_cons_self] at hcn
    have hnq : n ∉ queue := by
      intro hmem
      have h0 := hq0 n hmem
      rw [h0] at hcn
      push_cast at hcn
      omega
    have hstep : processNeighbors (n :: rest) deg queue =
        processNeighbors rest (fun m => if m = n then deg n - 1 else deg m)
          (if deg n - 1 = 0 then queue ++ [n] else queue) := rfl
    have hq0N : ∀ x ∈ (if deg n - 1 = 0 then queue ++ [n] else queue),
        (fun m => if m = n then deg n - 1 else deg m) x = 0 := by
      intro x hx
      by_cases hxn : x = n
      · subst hxn
        simp only [if_pos rfl]
        by_cases hdz : deg x - 1 = 0
        · exact hdz
        · rw [if_neg hdz] at hx
          exact absurd hx hnq
      · simp only [if_neg hxn]
        apply hq0
        by_cases hdz : deg n - 1 = 0
        · rw [if_pos hdz] at hx
          rcases List.mem_append.mp hx with h1 | h1
          · exact h1
          · simp at h1
            exact absurd h1 hxn
        · rw [if_neg hdz] at hx
          exact hx
    have hcntN : ∀ x, ((rest.count x : ℤ))
        ≤ (fun m => if m = n then deg n - 1 else deg m) x := by
      intro x
      by_cases hxn : x = n
      · subst hxn
        simp only [if_pos rfl]
        omega
      · simp only [if_neg hxn]
        have := hcnt x
        rw [List.count_cons_of_ne hxn] at this
        exact this
    obtain ⟨ihdeg, ihmem, ihnd, ihdom⟩ := ih _ _ hq0N hcntN
    rw [hstep]
    refine ⟨?_, ?_, ?_, ?_⟩
    · intro x
      rw [ihdeg x]
      by_cases hxn : x = n
      · subst hxn
        simp only [if_pos rfl, List.count_cons_self]
        push_cast
        ring
      · simp only [if_neg hxn]
        rw [List.count_cons_of_ne hxn]
    · intro x
      rw [ihmem x]
      by_cases hxn : x = n
      · subst hxn
        have hqN : x ∈ (if deg x - 1 = 0 then queue ++ [x] else queue) ↔ deg x - 1 = 0 := by
          by_cases hdz : deg x - 1 = 0
          · simp [hdz]
          · simp [hdz, hnq]
        rw [hqN]
        simp only [eq_self_iff_true, if_true, List.count_cons_self]
        constructor
        · rintro (hdz | ⟨hc, hdc⟩)
          · right
            have : rest.count x = 0 := by omega
            rw [this]
            push_cast
            exact ⟨trivial, by omega⟩
          · right
            push_cast
            constructor
            · omega
            · omega
        · rintro (hmem | ⟨_, hdc⟩)
          · exact absurd hmem hnq
          · push_cast at hdc
            by_cases hc0 : rest.count x = 0
            · left
              rw [hc0] at hdc
              push_cast at hdc
              omega
            · right
              constructor
              · omega
              · omega
      · have hqN : x ∈ (if deg n - 1 = 0 then queue ++ [n] else queue) ↔ x ∈ queue := by
          by_cases hdz : deg n - 1 = 0
          · simp [hdz, hxn]
          · simp [hdz]
        rw [hqN]
        simp only [if_neg hxn]
        rw [List.count_cons_of_ne hxn]
    · intro hqnd
      apply ihnd
      by_cases hdz : deg n - 1 = 0
      · rw [if_pos hdz]
        rw [List.nodup_append]
        refine ⟨hqnd, by simp, ?_⟩
        intro x hx1 hx2
        simp at hx2
        subst hx2
        exact hnq hx1
      · rw [if_neg hdz]
        exact hqnd
    · intro x hx
      rcases ihdom x hx with h1 | h1
      · by_cases hdz : deg n - 1 = 0
        · rw [if_pos hdz] at h1
          rcases List.mem_append.mp h1 with h2 | h2
          · exact Or.inl h2
          · simp at h2
            subst h2
            exact Or.inr (by simp)
        · rw [if_neg hdz] at h1
          exact Or.inl h1
      · exact Or.inr (List.mem_cons_of_mem n h1)

/-- A nonempty set in which every element has a predecessor inside the
set yields a directed cycle (pigeonhole along an iterated predecessor
sequence). -/
theorem exists_cycle_of_preds (pairs : List (String × String)) (S : List String)
    (hne : S ≠ []) (hpred : ∀ x ∈ S, ∃ u ∈ S, (u, x) ∈ pairs) :
    ∃ n, Relation.TransGen (edgeIn pairs) n n := by
  classical
  let f : String → String := fun x =>
    if h : ∃ u, u ∈ S ∧ (u, x) ∈ pairs then h.choose else x
  have hf : ∀ x ∈ S, f x ∈ S ∧ (f x, x) ∈ pairs := by
    intro x hx
    obtain ⟨u, hu, hup⟩ := hpred x hx
    have hex : ∃ u, u ∈ S ∧ (u, x) ∈ pairs := ⟨u, hu, hup⟩
    simp only [f, dif_pos hex]
    exact hex.choose_spec
  let g : ℕ → String := fun k => Nat.rec (S.head hne) (fun _ prev => f prev) k
  have hgs : ∀ k, g (k + 1) = f (g k) := fun _ => rfl
  have hgS : ∀ k, g k ∈ S := by
    intro k
    induction k with
    | zero => exact List.head_mem hne
    | succ k ihk =>
      rw [hgs]
      exact (hf (g k) ihk).1
  have hstep : ∀ k, edgeIn pairs (g (k + 1)) (g k) := by
    intro k
    rw [hgs]
    exact (hf (g k) (hgS k)).2
  have hchain : ∀ b a, a < b → Relation.TransGen (edgeIn pairs) (g b) (g a) := by
    intro b
    induction b with
    | zero => omega
    | succ b ihb =>
      intro a hab
      rcases Nat.lt_succ_iff_lt_or_eq.mp hab with h1 | h1
      · exact Relation.TransGen.head (hstep b) (ihb a h1)
      · subst h1
        exact Relation.TransGen.single (hstep a)
  have hcard : S.toFinset.card < (Finset.univ : Finset (Fin (S.length + 1))).card := by
    rw [Finset.card_univ, Fintype.card_fin]
    exact Nat.lt_succ_of_le (List.toFinset_card_le S)
  have hmaps : ∀ i ∈ (Finset.univ : Finset (Fin (S.length + 1))),
      g i.val ∈ S.toFinset := fun i _ => List.mem_toFinset.mpr (hgS i.val)
  obtain ⟨i, _, j, _, hij, hgij⟩ :=
    Finset.exists_ne_map_eq_of_card_lt_of_maps_to hcard hmaps
  rcases Ne.lt_or_lt hij with h1 | h1
  · refine ⟨g j.val, ?_⟩
    have := hchain j.val i.val h1
    rw [hgij] at this
    exact this
  · refine ⟨g i.val, ?_⟩
    have := hchain i.val j.val h1
    rw [← hgij] at this
    exact this

/-- Invariant induction for the Kahn worklist: with consistent degrees,
a queue holding exactly the unemitted zero-degree nodes, and emitted
nodes closed under predecessors in order, the run emits a permutation of
the node set respecting every edge. -/
theorem kahnRun_invariant (pairs : List (String × String)) (V : List String)
    (hV : V.Nodup) (hE : ∀ p ∈ pairs, p.1 ∈ V ∧ p.2 ∈ V) (hacyc : Acyclic pairs) :
    ∀ (fuel : ℕ) (queue result : List String) (deg : String → ℤ),
      fuel + result.length = V.length →
      result.Nodup → queue.Nodup →
      (∀ x ∈ result, x ∈ V) → (∀ x ∈ queue, x ∈ V) →
      (∀ x, ¬ (x ∈ result ∧ x ∈ queue)) →
      (∀ x, deg x = (pairs.countP (fun p => decide (p.2 = x) && !(decide (p.1 ∈ result))) : ℤ)) →
      (∀ x, x ∈ queue ↔ (x ∈ V ∧ ¬ x ∈ result ∧ deg x = 0)) →
      (∀ p ∈ pairs, p.2 ∈ result → [p.1, p.2].Sublist result) →
      (kahnRun (adjOf pairs) fuel queue deg result).Perm V ∧
      (∀ p ∈ pairs, [p.1, p.2].Sublist (kahnRun (adjOf pairs) fuel queue deg result)) := by
  intro fuel
  induction fuel with
  | zero =>
    intro queue result deg hflen hrnd hqnd hrV hqV hdisj hdeg hqiff hord
    have hrun : kahnRun (adjOf pairs) 0 queue deg result = result := rfl
    rw [hrun]
    have hperm : result.Perm V := by
      apply (hrnd.subperm (fun x hx => hrV x hx)).perm_of_length_le
      omega
    exact ⟨hperm, fun p hp => hord p hp (hperm.mem_iff.mpr (hE p hp).2)⟩
  | succ fuel ih =>
    intro queue result deg hflen hrnd hqnd hrV hqV hdisj hdeg hqiff hord
    cases queue with
    | nil =>
      have hrun : kahnRun (adjOf pairs) (fuel + 1) [] deg result = result := rfl
      rw [hrun]
      have hVsub : ∀ v ∈ V, v ∈ result := by
        by_contra hcon
        push_neg at hcon
        obtain ⟨v, hvV, hvr⟩ := hcon
        have hSne : V.filter (fun x => decide (¬ x ∈ result)) ≠ [] := by
          intro h0
          have hin : v ∈ V.filter (fun x => decide (¬ x ∈ result)) :=
            List.mem_filter.mpr ⟨hvV, by simpa using hvr⟩
          rw [h0] at hin
          simp at hin
        have hSpred : ∀ x ∈ V.filter (fun x => decide (¬ x ∈ result)),
            ∃ u ∈ V.filter (fun x => decide (¬ x ∈ result)), (u, x) ∈ pairs := by
          intro x hxS
          have hxV : x ∈ V := (List.mem_filter.mp hxS).1
          have hxr : ¬ x ∈ result := by simpa using (List.mem_filter.mp hxS).2
          have hdx : deg x ≠ 0 := by
            intro h0
            have : x ∈ ([] : List String) := (hqiff x).mpr ⟨hxV, hxr, h0⟩
            simp at this
          have hcount : 0 < pairs.countP
              (fun p => decide (p.2 = x) && !(decide (p.1 ∈ result))) := by
            rcases Nat.eq_zero_or_pos
              (pairs.countP (fun p => decide (p.2 = x) && !(decide (p.1 ∈ result)))) with h1 | h1
            · exfalso
              apply hdx
              rw [hdeg x, h1]
              rfl
            · exact h1
          obtain ⟨p, hp, hpP⟩ := List.countP_pos_iff.mp hcount
          have hp2 : p.2 = x ∧ ¬ p.1 ∈ result := by
            simpa using hpP
          refine ⟨p.1, List.mem_filter.mpr ⟨(hE p hp).1, by simpa using hp2.2⟩, ?_⟩
          have hpp : p = (p.1, x) := by
            rw [← hp2.1]
          rw [← hpp]
          exact hp
        obtain ⟨n, hn⟩ := exists_cycle_of_preds pairs _ hSne hSpred
        exact absurd hn (hacyc n)
      have hperm : result.Perm V :=
        (hrnd.subperm (fun x hx => hrV x hx)).antisymm (hV.subperm hVsub)
      exact ⟨hperm, fun p hp => hord p hp (hVsub p.2 (hE p hp).2)⟩
    | cons n rest =>
      obtain ⟨hnV, hnr, hdn⟩ := (hqiff n).mp (by simp)
      have hq0 : ∀ x ∈ rest, deg x = 0 := fun x hx => ((hqiff x).mp (by simp [hx])).2.2
      have hrestnd : rest.Nodup := hqnd.of_cons
      have hnrest : ¬ n ∈ rest := by
        intro hc
        exact (List.nodup_cons.mp hqnd).1 hc
      have hadj_mem : ∀ x, x ∈ adjOf pairs n → ∃ p ∈ pairs, p.1 = n ∧ p.2 = x := by
        intro x hx
        unfold adjOf at hx
        obtain ⟨p, hp, hpx⟩ := List.mem_map.mp hx
        have hmem := List.mem_filter.mp hp
        exact ⟨p, hmem.1, by simpa using hmem.2, hpx⟩
      have hcnt_pos_pair : ∀ x, 0 < (adjOf pairs n).count x →
          ∃ p ∈ pairs, p.1 = n ∧ p.2 = x := by
        intro x hx
        exact hadj_mem x (List.count_pos_iff.mp hx)
      have hcnt : ∀ x, (((adjOf pairs n).count x : ℤ)) ≤ deg x := by
        intro x
        rw [hdeg x, count_adjOf pairs n x]
        have hmono : pairs.countP (fun p => decide (p.1 = n) && decide (p.2 = x))
            ≤ pairs.countP (fun p => decide (p.2 = x) && !(decide (p.1 ∈ result))) := by
          apply List.countP_mono_left
          intro a _ hpa
          simp only [Bool.and_eq_true, decide_eq_true_eq] at hpa
          simp only [Bool.and_eq_true, decide_eq_true_eq, Bool.not_eq_true',
            decide_eq_false_iff_not]
          exact ⟨hpa.2, by rw [hpa.1]; exact hnr⟩
        exact_mod_cast hmono
      obtain ⟨pdeg, pmem, pnd, pdom⟩ :=
        processNeighbors_spec (adjOf pairs n) deg rest hq0 hcnt
      have hnew_props : ∀ x, 0 < (adjOf pairs n).count x →
          deg x = ((adjOf pairs n).count x : ℤ) → ¬ x ∈ result ∧ ¬ x = n := by
        intro x hpos hdx
        obtain ⟨p, hp, hp1, hp2⟩ := hcnt_pos_pair x hpos
        constructor
        · intro hxr
          have hsub := hord p hp (by rw [hp2]; exact hxr)
          have hmem1 : p.1 ∈ result := (List.Sublist.subset hsub) (by simp)
          rw [hp1] at hmem1
          exact hnr hmem1
        · intro hxn
          subst hxn
          rw [hdn] at hdx
          have : (0:ℤ) < (((adjOf pairs x).count x : ℤ)) := by exact_mod_cast hpos
          omega
      have hrun : kahnRun (adjOf pairs) (fuel + 1) (n :: rest) deg result =
          kahnRun (adjOf pairs) fuel (processNeighbors (adjOf pairs n) deg rest).2
            (processNeighbors (adjOf pairs n) deg rest).1 (result ++ [n]) := rfl
      rw [hrun]
      apply ih
      · simp only [List.length_append, List.length_singleton]
        omega
      · rw [List.nodup_append]
        refine ⟨hrnd, by simp, ?_⟩
        intro x hx1 hx2
        simp only [List.mem_singleton] at hx2
        subst hx2
        exact hnr hx1
      · exact pnd hrestnd
      · intro x hx
        rcases List.mem_append.mp hx with h1 | h1
        · exact hrV x h1
        · simp only [List.mem_singleton] at h1
          subst h1
          exact hnV
      · intro x hx
        rcases pdom x hx with h1 | h1
        · exact hqV x (List.mem_cons_of_mem n h1)
        · obtain ⟨p, hp, _, hp2⟩ := hadj_mem x h1
          rw [← hp2]
          exact (hE p hp).2
      · intro x hx
        obtain ⟨hxr, hxq⟩ := hx
        rcases (pmem x).mp hxq with h1 | h1
        · rcases List.mem_append.mp hxr with h2 | h2
          · exact hdisj x ⟨h2, List.mem_cons_of_mem n h1⟩
          · simp only [List.mem_singleton] at h2
            subst h2
            exact hnrest h1
        · obtain ⟨hnot1, hnot2⟩ := hnew_props x h1.1 h1.2
          rcases List.mem_append.mp hxr with h2 | h2
          · exact hnot1 h2
          · simp only [List.mem_singleton] at h2
            exact hnot2 h2
      · intro x
        rw [pdeg x, hdeg x, count_adjOf pairs n x]
        have hsplit := countP_split pairs
          (fun p => decide (p.2 = x) && !(decide (p.1 ∈ result))) (fun p => decide (p.1 = n))
        have he1 : pairs.countP
            (fun p => (decide (p.2 = x) && !(decide (p.1 ∈ result))) && decide (p.1 = n))
            = pairs.countP (fun p => decide (p.1 = n) && decide (p.2 = x)) := by
          apply countP_ext
          intro a _
          by_cases h1 : a.2 = x <;> by_cases h2 : a.1 = n <;>
            simp [h1, h2, hnr]
        have he2 : pairs.countP
            (fun p => (decide (p.2 = x) && !(decide (p.1 ∈ result))) && !(decide (p.1 = n)))
            = pairs.countP (fun p => decide (p.2 = x) && !(decide (p.1 ∈ result ++ [n]))) := by
          apply countP_ext
          intro a _
          by_cases h1 : a.2 = x <;> by_cases h2 : a.1 = n <;>
            by_cases h3 : a.1 ∈ result <;>
            simp [h1, h2, h3]
        rw [he1] at hsplit
        rw [he2] at hsplit
        omega
      · intro x
        constructor
        · intro hxq
          rcases (pmem x).mp hxq with h1 | h1
          · have hxV : x ∈ V := hqV x (List.mem_cons_of_mem n h1)
            have hxnr : ¬ x ∈ result := fun hc => hdisj x ⟨hc, List.mem_cons_of_mem n h1⟩
            have hxne : ¬ x = n := fun hc => hnrest (hc ▸ h1)
            have hdx : deg x = 0 := hq0 x h1
            have hc0 : (adjOf pairs n).count x = 0 := by
              have := hcnt x
              rw [hdx] at this
              omega
            refine ⟨hxV, ?_, ?_⟩
            · intro hc
              rcases List.mem_append.mp hc with h2 | h2
              · exact hxnr h2
              · simp only [List.mem_singleton] at h2
                exact hxne h2
            · rw [pdeg x, hdx, hc0]
              simp
          · obtain ⟨hnot1, hnot2⟩ := hnew_props x h1.1 h1.2
            obtain ⟨p, hp, _, hp2⟩ := hcnt_pos_pair x h1.1
            refine ⟨by rw [← hp2]; exact (hE p hp).2, ?_, ?_⟩
            · intro hc
              rcases List.mem_append.mp hc with h2 | h2
              · exact hnot1 h2
              · simp only [List.mem_singleton] at h2
                exact hnot2 h2
            · rw [pdeg x, h1.2]
              ring
        · rintro ⟨hxV, hxr, hdx⟩
          have hxnr : ¬ x ∈ result := fun hc => hxr (List.mem_append.mpr (Or.inl hc))
          have hxne : ¬ x = n := fun hc => hxr (List.mem_append.mpr (Or.inr (by simp [hc])))
          rw [pdeg x] at hdx
          rcases Nat.eq_zero_or_pos ((adjOf pairs n).count x) with hc0 | hc0
          · have hdx0 : deg x = 0 := by
              rw [hc0] at hdx
              simpa using hdx
            have hmem : x ∈ n :: rest := (hqiff x).mpr ⟨hxV, hxnr, hdx0⟩
            rcases List.mem_cons.mp hmem with h2 | h2
            · exact absurd h2 hxne
            · exact (pmem x).mpr (Or.inl h2)
          · apply (pmem x).mpr
            right
            exact ⟨hc0, by omega⟩
      · intro p hp hp2
        rcases List.mem_append.mp hp2 with h2 | h2
        · exact (hord p hp h2).trans (List.sublist_append_left result [n])
        · simp only [List.mem_singleton] at h2
          have hcz : pairs.countP (fun q => decide (q.2 = n) && !(decide (q.1 ∈ result))) = 0 := by
            have := hdeg n
            rw [hdn] at this
            omega
          have hall := List.countP_eq_zero.mp hcz
          have hpmem : p.1 ∈ result := by
            have hnp := hall p hp
            simp only [Bool.and_eq_true, decide_eq_true_eq, Bool.not_eq_true',
              decide_eq_false_iff_not, not_and, not_not] at hnp
            exact hnp h2
          have hfinal : ([p.1] ++ [p.2]).Sublist (result ++ [n]) := by
            apply List.Sublist.append
            · exact List.singleton_sublist.mpr hpmem
            · rw [h2]
          exact hfinal

theorem restrictedPrereq_mem (V : List String) (edges : List EdgeRec) :
    ∀ p ∈ restrictedPrereq V edges, p.1 ∈ V ∧ p.2 ∈ V := by
  intro p hp
  unfold restrictedPrereq at hp
  obtain ⟨e, he, hpe⟩ := List.mem_map.mp hp
  have hcond := (List.mem_filter.mp he).2
  simp only [Bool.and_eq_true, decide_eq_true_eq] at hcond
  rw [← hpe]
  exact ⟨hcond.1.2, hcond.2⟩

/-- C4: for a duplicate-free node set whose restricted PREREQUISITE
edges are acyclic, the topological sort emits a permutation of the node
set (every node exactly once), and for every restricted PREREQUISITE
edge the source occurs before the target in the output. -/
theorem c4_topological_sort (V : List String) (edges : List EdgeRec)
    (hV : V.Nodup) (hacyc : Acyclic (restrictedPrereq V edges)) :
    (topologicalSort V edges).Perm V ∧
    ∀ p ∈ restrictedPrereq V edges, [p.1, p.2].Sublist (topologicalSort V edges) := by
  have hrun : topologicalSort V edges =
      kahnRun (adjOf (restrictedPrereq V edges)) V.length
        (V.filter (fun n => degOf (restrictedPrereq V edges) n = 0))
        (degOf (restrictedPrereq V edges)) [] := rfl
  rw [hrun]
  apply kahnRun_invariant (restrictedPrereq V edges) V hV (restrictedPrereq_mem V edges) hacyc
  · simp
  · exact List.nodup_nil
  · exact hV.filter _
  · intro x hx
    simp at hx
  · intro x hx
    exact (List.mem_filter.mp hx).1
  · intro x hx
    simp at hx
  · intro x
    unfold degOf
    congr 1
    apply countP_ext
    intro a _
    simp
  · intro x
    rw [List.mem_filter]
    simp
  · intro p _ hmem
    simp at hmem

/-- The edge-collection pass keeps the visited list duplicate-free, only
ever adds picked endpoints of the scanned edges, preserves previously
visited nodes, and only enqueues nodes it has marked visited. -/
theorem collectEdges_props (pick : EdgeRec → String) (d1 : ℕ) :
    ∀ (es : List EdgeRec) (visited : List String) (queue : List (String × ℕ))
      (eds : List EdgeRec),
      visited.Nodup →
      (collectEdges pick d1 es visited queue eds).1.Nodup ∧
      (∀ x ∈ (collectEdges pick d1 es visited queue eds).1,
        x ∈ visited ∨ x ∈ es.map pick) ∧
      (∀ x ∈ visited, x ∈ (collectEdges pick d1 es visited queue eds).1) ∧
      (∀ p ∈ (collectEdges pick d1 es visited queue eds).2.1,
        p ∈ queue ∨ p.1 ∈ (collectEdges pick d1 es visited queue eds).1) := by
  intro es
  induction es with
  | nil =>
    intro visited queue eds hnd
    exact ⟨hnd, fun x hx => Or.inl hx, fun x hx => hx, fun p hp => Or.inl hp⟩
  | cons e rest ih =>
    intro visited queue eds hnd
    by_cases hmem : pick e ∈ visited
    · have hstep : collectEdges pick d1 (e :: rest) visited queue eds
          = collectEdges pick d1 rest visited queue (eds ++ [e]) := by
        simp [collectEdges, hmem]
      rw [hstep]
      obtain ⟨a, b, c, d⟩ := ih visited queue (eds ++ [e]) hnd
      refine ⟨a, fun x hx => ?_, c, d⟩
      rcases b x hx with h | h
      · exact Or.inl h
      · rw [List.map_cons]
        exact Or.inr (List.mem_cons_of_mem _ h)
    · have hstep : collectEdges pick d1 (e :: rest) visited queue eds
          = collectEdges pick d1 rest (visited ++ [pick e])
              (queue ++ [(pick e, d1)]) (eds ++ [e]) := by
        simp [collectEdges, hmem]
      rw [hstep]
      have hnd2 : (visited ++ [pick e]).Nodup := by
        rw [List.nodup_append]
        refine ⟨hnd, by simp, ?_⟩
        intro x hx1 hx2
        simp only [List.mem_singleton] at hx2
        subst hx2
        exact hmem hx1
      obtain ⟨a, b, c, d⟩ := ih (visited ++ [pick e]) (queue ++ [(pick e, d1)]) (eds ++ [e]) hnd2
      refine ⟨a, fun x hx => ?_, fun x hx => c x (by simp [hx]), fun p hp => ?_⟩
      · rcases b x hx with h | h
        · rcases List.mem_append.mp h with h2 | h2
          · exact Or.inl h2
          · simp only [List.mem_singleton] at h2
            exact Or.inr (by simp [h2])
        · rw [List.map_cons]
          exact Or.inr (List.mem_cons_of_mem _ h)
      · rcases d p hp with h | h
        · rcases List.mem_append.mp h with h2 | h2
          · exact Or.inl h2
          · simp only [List.mem_singleton] at h2
            subst h2
            exact Or.inr (c (pick e) (by simp))
        · exact Or.inr h

theorem subgraphUpstream_ok (st : GraphState) (direction cur : String) (d : ℕ)
    (visited : List String) (queue : List (String × ℕ)) (eds : List EdgeRec)
    (hnd : visited.Nodup) :
    StageOk st visited (subgraphUpstream st direction cur d (visited, queue, eds)) := by
  unfold subgraphUpstream
  by_cases hc : (direction = "upstream" || direction = "both") = true
  · rw [if_pos hc]
    obtain ⟨a, b, c, _⟩ := collectEdges_props (fun e => e.source) (d + 1)
      (st.edges.filter (fun e => e.target = cur)) visited queue eds hnd
    refine ⟨a, fun x hx => ?_, c⟩
    rcases b x hx with h | h
    · exact Or.inl h
    · obtain ⟨e, he, hxe⟩ := List.mem_map.mp h
      exact Or.inr ⟨e, List.mem_of_mem_filter he, Or.inl hxe.symm⟩
  · rw [if_neg hc]
    exact ⟨hnd, fun x hx => Or.inl hx, fun x hx => hx⟩

theorem subgraphDownstream_ok (st : GraphState) (direction cur : String) (d : ℕ)
    (visited : List String) (s : List String × List (String × ℕ) × List EdgeRec)
    (hok : StageOk st visited s) :
    StageOk st visited (subgraphDownstream st direction cur d s) := by
  obtain ⟨hnd, hdom, hsup⟩ := hok
  unfold subgraphDownstream
  by_cases hc : (direction = "downstream" || direction = "both") = true
  · rw [if_pos hc]
    obtain ⟨a, b, c, _⟩ := collectEdges_props (fun e => e.target) (d + 1)
      (st.edges.filter (fun e => e.source = cur)) s.1 s.2.1 s.2.2 hnd
    refine ⟨a, fun x hx => ?_, fun x hx => c x (hsup x hx)⟩
    rcases b x hx with h | h
    · exact hdom x h
    · obtain ⟨e, he, hxe⟩ := List.mem_map.mp h
      exact Or.inr ⟨e, List.mem_of_mem_filter he, Or.inr hxe.symm⟩
  · rw [if_neg hc]
    exact ⟨hnd, hdom, hsup⟩

/-- The subgraph BFS keeps the visited list duplicate-free, only visits
previously visited nodes and endpoints of stored edges, and never
unvisits a node. -/
theorem getSubgraphAux_props (st : GraphState) (depth : ℕ) (direction : String) :
    ∀ (fuel : ℕ) (queue : List (String × ℕ)) (visited : List String) (eds : List EdgeRec),
      visited.Nodup →
      (getSubgraphAux st depth direction fuel queue visited eds).1.Nodup ∧
      (∀ x ∈ (getSubgraphAux st depth direction fuel queue visited eds).1,
        x ∈ visited ∨ ∃ e ∈ st.edges, x = e.source ∨ x = e.target) ∧
      (∀ x ∈ visited, x ∈ (getSubgraphAux st depth direction fuel queue visited eds).1) := by
  intro fuel
  induction fuel with
  | zero =>
    intro queue visited eds hnd
    exact ⟨hnd, fun x hx => Or.inl hx, fun x hx => hx⟩
  | succ fuel ih =>
    intro queue visited eds hnd
    cases queue with
    | nil => exact ⟨hnd, fun x hx => Or.inl hx, fun x hx => hx⟩
    | cons hd tl =>
      obtain ⟨cur, d⟩ := hd
      by_cases hdep : depth ≤ d
      · have hstep : getSubgraphAux st depth direction (fuel + 1) ((cur, d) :: tl) visited eds
            = getSubgraphAux st depth direction fuel tl visited eds := by
          simp only [getSubgraphAux, if_pos hdep]
        rw [hstep]
        exact ih tl visited eds hnd
      · have hstep : getSubgraphAux st depth direction (fuel + 1) ((cur, d) :: tl) visited eds
            = getSubgraphAux st depth direction fuel
                (subgraphDownstream st direction cur d
                  (subgraphUpstream st direction cur d (visited, tl, eds))).2.1
                (subgraphDownstream st direction cur d
                  (subgraphUpstream st direction cur d (visited, tl, eds))).1
                (subgraphDownstream st direction cur d
                  (subgraphUpstream st direction cur d (visited, tl, eds))).2.2 := by
          simp only [getSubgraphAux, if_neg hdep]
        rw [hstep]
        have hok : StageOk st visited
            (subgraphDownstream st direction cur d
              (subgraphUpstream st direction cur d (visited, tl, eds))) :=
          subgraphDownstream_ok st direction cur d visited _
            (subgraphUpstream_ok st direction cur d visited tl eds hnd)
        obtain ⟨hnd2, hdom2, hsup2⟩ := hok
        obtain ⟨a, b, c⟩ := ih _ _ _ hnd2
        refine ⟨a, fun x hx => ?_, fun x hx => c x (hsup2 x hx)⟩
        rcases b x hx with h | h
        · exact hdom2 x h
        · exact Or.inr h

/-- Fetching node rows for a list of ids that all exist yields exactly
one row per id, in order. -/
theorem filterMap_find_ids (nodes : List NodeRec) :
    ∀ (visited : List String), (∀ i ∈ visited, ∃ n ∈ nodes, n.id = i) →
      (visited.filterMap (fun i => nodes.find? (fun n => n.id = i))).map (fun n => n.id)
        = visited := by
  intro visited
  induction visited with
  | nil => intro _; rfl
  | cons i rest ihr =>
    intro h
    obtain ⟨n0, hn0, hid⟩ := h i (by simp)
    have hsome : (nodes.find? (fun n => n.id = i)).isSome := by
      rw [List.find?_isSome]
      exact ⟨n0, hn0, by simp [hid]⟩
    obtain ⟨y, hy⟩ := Option.isSome_iff_exists.mp hsome
    have hyid : y.id = i := by
      have := List.find?_some hy
      simpa using this
    simp only [List.filterMap_cons, hy]
    rw [List.map_cons, hyid, ihr (fun j hj => h j (by simp [hj]))]

/-- C8: for a valid center and a referentially intact store, the node
list of get_subgraph lists exactly the BFS-visited ids, each exactly
once (the visited list is duplicate-free) and including the center; the
collected edge list is not deduplicated: in the two-node example with
direction both and depth 2, the single stored edge is returned twice,
once collected from each endpoint. -/
theorem c8_subgraph_nodes_once_edges_dup :
    (∀ (st : GraphState) (center direction : String) (depth : ℕ),
      (∃ n ∈ st.nodes, n.id = center) →
      (∀ e ∈ st.edges,
        (∃ n ∈ st.nodes, n.id = e.source) ∧ (∃ n ∈ st.nodes, n.id = e.target)) →
      ((getSubgraph st center depth direction).1.map (fun n => n.id)
          = (getSubgraphData st center depth direction).1 ∧
        (getSubgraphData st center depth direction).1.Nodup ∧
        center ∈ (getSubgraphData st center depth direction).1)) ∧
    (getSubgraph c8DemoState "a" 2 "both").2 = [c8DemoEdge, c8DemoEdge] := by
  constructor
  · intro st center direction depth hcen hri
    obtain ⟨hnd, hdom, hsup⟩ := getSubgraphAux_props st depth direction
      (2 * st.edges.length + 2) [(center, 0)] [center] [] (by simp)
    have hvis : ∀ i ∈ (getSubgraphData st center depth direction).1,
        ∃ n ∈ st.nodes, n.id = i := by
      intro i hi
      rcases hdom i hi with h | h
      · simp only [List.mem_singleton] at h
        rw [h]
        exact hcen
      · obtain ⟨e, he, hie⟩ := h
        rcases hie with h2 | h2
        · rw [h2]
          exact (hri e he).1
        · rw [h2]
          exact (hri e he).2
    exact ⟨filterMap_find_ids st.nodes _ hvis, hnd, hsup center (by simp)⟩
  · rfl

theorem c2_witness :
    (13/10 ≤ (5/2 : ℚ)) ∧
    (((calculateNextReview 4 (1/2) (5/2) 0 0 0).isSome ↔ (0 ≤ (4:ℤ) ∧ (4:ℤ) ≤ 5)) ∧
      ∀ res, calculateNextReview 4 (1/2) (5/2) 0 0 0 = some res →
        13/10 ≤ res.ease_factor ∧ 1 ≤ res.interval_days) :=
  ⟨by norm_num, c2_ease_interval_bounds 4 (1/2) (5/2) 0 0 0 (by norm_num)⟩

theorem c6_witness :
    ((0:ℤ) ≤ 2) ∧ ((2:ℤ) < 3) ∧ ((0:ℚ) ≤ 1/2) ∧ ((1/2:ℚ) ≤ 1) ∧
    ((5/2 : ℚ) = ((250:ℤ) : ℚ) / 100) ∧
    (sm2ResQ2.repetitions = 0 ∧ sm2ResQ2.interval_days = 1 ∧
      sm2ResQ2.ease_factor ≤ (5/2 : ℚ)) :=
  ⟨by norm_num, by norm_num, by norm_num, by norm_num, by norm_num,
    c6_failure_reset.1 2 (1/2) (5/2) 10 3 0 250 (by norm_num) (by norm_num)
      (by norm_num) (by norm_num) (by norm_num) sm2ResQ2 sm2_eval_q2⟩

theorem c7_witness :
    ((3:ℤ) ≤ 5) ∧ ((5:ℤ) ≤ 5) ∧
    (sm2ResQ5.repetitions = 0 + 1 ∧
      sm2ResQ5.interval_days
        = max 1 (pyRound ((sm2PreInterval 5 0 0 (5/2) : ℚ) * (1 - (1/2) * (3/10))))) :=
  ⟨by norm_num, by norm_num,
    c7_success_progression.1 5 (1/2) (5/2) 0 0 0 (by norm_num) (by norm_num)
      sm2ResQ5 sm2_eval_q5⟩

theorem c3_witness :
    (c3DemoState.nodes.find? (fun n => n.id = "x") = some c3DemoNode) ∧
    (c3DemoPatch.quality = some 5) ∧
    ∃ stNew node, updateNode c3DemoState "x" c3DemoPatch "t1" = .ok (stNew, node) ∧
      node.masteryLevel = sm2ResQ5.suggested_mastery.getD
        (c3DemoPatch.mastery_level.getD
          (if c3DemoPatch.mastery_recall.isSome || c3DemoPatch.mastery_application.isSome
              || c3DemoPatch.mastery_explanation.isSome then
            calculateOverallMastery (c3DemoPatch.mastery_recall.getD c3DemoNode.masteryRecall)
              (c3DemoPatch.mastery_application.getD c3DemoNode.masteryApplication)
              (c3DemoPatch.mastery_explanation.getD c3DemoNode.masteryExplanation)
          else c3DemoNode.masteryLevel)) ∧
      stNew.history = c3DemoState.history ++ [{
        nodeId := "x",
        quality := 5,
        masteryBefore := c3DemoNode.masteryLevel,
        masteryAfter := node.masteryLevel,
        notes := c3DemoPatch.notes,
        misconceptionDetected := c3DemoPatch.misconception_detected }] :=
  ⟨rfl, rfl, c3_mastery_precedence c3DemoState "x" "t1" c3DemoPatch c3DemoNode 5
    sm2ResQ5 rfl rfl sm2_eval_q5⟩

theorem c4_witness :
    c4DemoV.Nodup ∧ Acyclic (restrictedPrereq c4DemoV c4DemoEdges) ∧
    ((topologicalSort c4DemoV c4DemoEdges).Perm c4DemoV ∧
      ∀ p ∈ restrictedPrereq c4DemoV c4DemoEdges,
        [p.1, p.2].Sublist (topologicalSort c4DemoV c4DemoEdges)) :=
  ⟨by decide, acyclic_of_rank _ c4Rank (by decide),
    c4_topological_sort c4DemoV c4DemoEdges (by decide)
      (acyclic_of_rank _ c4Rank (by decide))⟩

theorem c5_witness :
    (¬ "x" = "") ∧
    (((deleteNode c5WitState "x").2 = c5WitState.nodes.any (fun n => n.id = "x")) ∧
      (deleteNode c5WitState "x").1.nodes = c5WitState.nodes.filter (fun n => ¬ n.id = "x") ∧
      (deleteNode c5WitState "x").1.edges
        = c5WitState.edges.filter (fun e => ¬ e.source = "x" ∧ ¬ e.target = "x") ∧
      (deleteNode c5WitState "x").1.history
        = c5WitState.history.filter (fun h => ¬ h.nodeId = "x") ∧
      getEdges (deleteNode c5WitState "x").1 (some "x") none none = [] ∧
      getEdges (deleteNode c5WitState "x").1 none (some "x") none = []) :=
  ⟨by decide, c5_cascade c5WitState "x" (by decide) (by decide) (by decide)⟩

theorem c8_witness :
    (∃ n ∈ c8DemoState.nodes, n.id = "a") ∧
    ((getSubgraph c8DemoState "a" 2 "both").1.map (fun n => n.id)
        = (getSubgraphData c8DemoState "a" 2 "both").1 ∧
      (getSubgraphData c8DemoState "a" 2 "both").1.Nodup ∧
      "a" ∈ (getSubgraphData c8DemoState "a" 2 "both").1) :=
  ⟨by decide, c8_subgraph_nodes_once_edges_dup.1 c8DemoState "a" "both" 2
    (by decide) (by decide)⟩

theorem c9_witness :
    (c9DemoState.nodes.find? (fun n => n.id = "z") = some c9DemoNode) ∧
    updateNode c9DemoState "z" {} "t2" = .ok (c9DemoState, c9DemoNode) :=
  ⟨rfl, c9_empty_patch c9DemoState "z" "t2" c9DemoNode rfl⟩

theorem c10_witness :
    (∀ ch ∈ ("!!!" : String).data, isAllowedChar ch.toLower = false) ∧
    (∀ ch ∈ ("??" : String).data, isAllowedChar ch.toLower = false) ∧
    (addNode c10State0 { concept := "!!!" } = .ok (c10State1, c10Node)) ∧
    ((∀ c : String, ¬ generateNodeId c = "") ∧
      generateNodeId "!!!" = "node" ∧ generateNodeId "??" = "node" ∧
      addNode c10State1 { concept := "??" } = .error "Node with ID 'node' already exists") :=
  ⟨by decide, by decide, rfl,
    c10_generated_id c10State0 c10State1 "!!!" "??" c10Node (by decide) (by decide) rfl⟩
